import Mathlib

/-!
Shallow embedding of the mainmatter rust-workshop-runner repository
(src/lib.rs, src/main.rs), covering exercise-name parsing, the exercise
ordering, the discovered-exercise set, the progress store, the
next-exercise algorithm, and the verification pipeline.

Conventions of the embedding:
- Rust `&OsStr` directory names are modelled as `Option String`: `some s`
  is a name that is valid UTF-8 text, `none` stands for a name that is not
  valid UTF-8 (so `to_str` fails on it).
- The regex classes `\d` and `\w` are modelled over their ASCII meaning
  (`Char.isDigit` and letters, digits, underscore), which is the fragment
  the repository and its directory-name convention exercise.
- `u16` numbers are modelled as `Nat`; the parser only ever produces
  values up to 99 (two digits), far below the `u16` bound, so overflow
  cannot occur in the modelled code paths.
- The SQLite table `open_exercises` is modelled as a list of rows in
  insertion order; its `PRIMARY KEY (chapter, exercise)` constraint is the
  `keyUnique` predicate.  `INSERT OR IGNORE` and `UPDATE` are modelled by
  the corresponding pure list transformations.
- `BTreeSet` is modelled as a strictly sorted list under the `Ord`
  implementation of `ExerciseDefinition` (comparison by chapter number
  then exercise number); `insert` keeps the already-present element, as
  `BTreeSet::insert` does.
-/

namespace wr

/-- Model of the regex class `\w` (word character), ASCII fragment:
letters, digits and underscore. -/
def isWordChar (c : Char) : Bool := c.isAlphanum || c == '_'

/-- Numeric value of an ASCII digit character, as used by `str::parse`
on the two-digit capture group. -/
def digitVal (c : Char) : Nat := c.toNat - 48

/-- ASCII digit character for a value below 10, as produced by the
decimal rendering of `format!`. -/
def digitChar (n : Nat) : Char := Char.ofNat (48 + n)

/-- Model of `&OsStr`: `some s` is a valid UTF-8 name, `none` a name that
is not valid UTF-8. -/
abbrev OsStr := Option String

/-- Attempt to match the regex `(?P<number>\d{2})_(?P<name>\w+)` at the
start of the character list: two digits, an underscore, then a maximal
nonempty run of word characters.  Returns the parsed number and the name
characters. -/
def captureAt : List Char → Option (Nat × List Char)
  | d1 :: d2 :: u :: rest =>
      if d1.isDigit && d2.isDigit && u == '_' && !(rest.takeWhile isWordChar).isEmpty then
        some (digitVal d1 * 10 + digitVal d2, rest.takeWhile isWordChar)
      else
        none
  | _ => none

/-- Model of `Regex::captures` for the pattern
`(?P<number>\d{2})_(?P<name>\w+)`: the pattern is not anchored, so the
leftmost position admitting a match wins. -/
def findCapture : List Char → Option (Nat × List Char)
  | [] => none
  | c :: cs =>
      match captureAt (c :: cs) with
      | some r => some r
      | none => findCapture cs

/-- Error type of `ExerciseDefinition::new` (`lib.rs`): either the
directory name is not valid UTF-8, or the regex finds no match; in the
latter case the error message carries the offending directory name and
whether it was a chapter or an exercise. -/
inductive ParseError where
  | notUtf8 (kind : String)
  | noMatch (dirName : String) (kind : String)
deriving DecidableEq, Repr

/-- Convert the result of the regex search into the result of `parse`:
no match is an error carrying the offending name, a match yields the
pair `(name, number)`. -/
def parseCapture (s : String) (kind : String) :
    Option (Nat × List Char) → Except ParseError (String × Nat)
  | none => .error (.noMatch s kind)
  | some (number, name) => .ok (String.mk name, number)

/-- Model of the inner `parse` helper of `ExerciseDefinition::new`
(`lib.rs` lines 308-326): convert the `OsStr` to UTF-8 text, run the
(unanchored) regex, and return `(name, number)` of the leftmost match. -/
def parseDirName : OsStr → String → Except ParseError (String × Nat)
  | none, kind => .error (.notUtf8 kind)
  | some s, kind => parseCapture s kind (findCapture s.data)

/-- Model of `ExerciseDefinition` (`lib.rs` lines 252-258).  Numbers are
`u16` in the source; the parser only produces values up to 99. -/
structure ExerciseDefinition where
  chapter_name : String
  chapter_number : Nat
  name : String
  number : Nat
deriving DecidableEq, Repr

/-- Assemble an `ExerciseDefinition` from the two parse results (first
component of each pair is the name, second the number). -/
def ExerciseDefinition.ofParsed (exercisePart chapterPart : String × Nat) :
    ExerciseDefinition :=
  { chapter_name := chapterPart.1, chapter_number := chapterPart.2,
    name := exercisePart.1, number := exercisePart.2 }

/-- Model of `ExerciseDefinition::new` (`lib.rs` lines 306-337): parse
the exercise directory name first, then the chapter directory name. -/
def ExerciseDefinition.new (chapterDirName exerciseDirName : OsStr) :
    Except ParseError ExerciseDefinition :=
  (parseDirName exerciseDirName "exercise").bind (fun e =>
    (parseDirName chapterDirName "chapter").map (fun c =>
      ExerciseDefinition.ofParsed e c))

/-- Decimal digits of a natural number, accumulator form (used to model
the rendering done by `format!`). -/
def natDigitsAux : Nat → Nat → List Char → List Char
  | 0, _, acc => acc
  | fuel + 1, n, acc =>
      if n = 0 then acc else natDigitsAux fuel (n / 10) (digitChar (n % 10) :: acc)

/-- Decimal rendering of a natural number as characters (the fuel
argument `n` of `natDigitsAux` is always enough, since a positive number
has at most as many digits as its own value). -/
def natDigits (n : Nat) : List Char :=
  if n = 0 then ['0'] else natDigitsAux n n []

/-- Model of the format specifier `{:02}`: decimal rendering left-padded
with zeros to a minimum width of two. -/
def renderNum2 (n : Nat) : List Char :=
  let ds := natDigits n
  List.replicate (2 - ds.length) '0' ++ ds

/-- Model of `ExerciseDefinition::chapter` (`lib.rs` lines 370-372):
render the chapter as `NN_name`. -/
def ExerciseDefinition.chapter (d : ExerciseDefinition) : String :=
  String.mk (renderNum2 d.chapter_number ++ '_' :: d.chapter_name.data)

/-- Model of `ExerciseDefinition::exercise` (`lib.rs` lines 375-377):
render the exercise as `NN_name`. -/
def ExerciseDefinition.exercise (d : ExerciseDefinition) : String :=
  String.mk (renderNum2 d.number ++ '_' :: d.name.data)

/-- Model of the `Ord`/`PartialOrd` implementation for
`ExerciseDefinition` (`lib.rs` lines 278-292): compare chapter numbers,
then exercise numbers; names are ignored. -/
def ExerciseDefinition.cmp (a b : ExerciseDefinition) : Ordering :=
  (compare a.chapter_number b.chapter_number).then (compare a.number b.number)

/-- Model of `OpenedExercise` (`lib.rs` lines 260-264). -/
structure OpenedExercise where
  definition : ExerciseDefinition
  solved : Bool
deriving DecidableEq, Repr

/-- Model of `BTreeSet::insert` for `ExerciseDefinition` on a sorted
list: the element is placed at its position in the order; if an element
comparing equal (`Ordering.eq`) is already present, the set is unchanged
(the already-present element is kept, as `BTreeSet::insert` does). -/
def btreeInsert (x : ExerciseDefinition) : List ExerciseDefinition → List ExerciseDefinition
  | [] => [x]
  | y :: ys =>
      match ExerciseDefinition.cmp x y with
      | .lt => x :: y :: ys
      | .eq => y :: ys
      | .gt => y :: btreeInsert x ys

/-- Model of collecting an iterator into a `BTreeSet<ExerciseDefinition>`. -/
def btreeOfList (l : List ExerciseDefinition) : List ExerciseDefinition :=
  l.foldl (fun s d => btreeInsert d s) []

/-- Model of `BTreeSet::contains` for `ExerciseDefinition`: membership is
decided by the `Ord` implementation, i.e. by the number pair only. -/
def btreeContains (s : List ExerciseDefinition) (x : ExerciseDefinition) : Bool :=
  s.any (fun y => decide (ExerciseDefinition.cmp y x = Ordering.eq))

/-- Model of `BTreeSet::insert` for `OpenedExercise`, whose `Ord`
implementation (`lib.rs` lines 266-276) delegates to the definition. -/
def btreeInsertOpened (x : OpenedExercise) : List OpenedExercise → List OpenedExercise
  | [] => [x]
  | y :: ys =>
      match ExerciseDefinition.cmp x.definition y.definition with
      | .lt => x :: y :: ys
      | .eq => y :: ys
      | .gt => y :: btreeInsertOpened x ys

/-- Model of one row of the SQLite table `open_exercises`
(`chapter TEXT, exercise TEXT, solved INTEGER`, primary key
`(chapter, exercise)`); the `solved` integer is only ever written as 0 or
1, read back as a boolean. -/
structure Row where
  chapter : String
  exercise : String
  solved : Bool
deriving DecidableEq, Repr

/-- Does a row carry the given primary key? -/
def rowKeyMatches (c e : String) (r : Row) : Bool :=
  r.chapter == c && r.exercise == e

/-- Model of the `PRIMARY KEY (chapter, exercise)` constraint: at most
one row per key. -/
def keyUnique (db : List Row) : Prop :=
  ∀ c e, (db.filter (rowKeyMatches c e)).length ≤ 1

/-- Model of
`INSERT OR IGNORE INTO open_exercises (chapter, exercise, solved) VALUES (?1, ?2, 0)`:
append a row with `solved = false` unless a row with the same key exists. -/
def insertOrIgnore (db : List Row) (c e : String) : List Row :=
  if db.any (rowKeyMatches c e) then db
  else db ++ [{ chapter := c, exercise := e, solved := false }]

/-- Model of
`UPDATE open_exercises SET solved = ?v WHERE chapter = ?1 AND exercise = ?2`:
set the flag on every row with the key (a no-op when no row matches). -/
def updateSolved (db : List Row) (c e : String) (v : Bool) : List Row :=
  db.map (fun r => if rowKeyMatches c e r then { r with solved := v } else r)

/-- Model of the in-memory state behind `ExerciseCollection`
(`lib.rs` lines 92-96): the exercise root directory (as path segments),
the discovered set (sorted, deduplicated by the definition order), and
the contents of the `open_exercises` table reachable through the
connection. -/
structure CollectionState where
  exercises_dir : List String
  exercises : List ExerciseDefinition
  db : List Row
deriving DecidableEq, Repr

/-- Reconstruct one `OpenedExercise` from a row, as the `query_map`
closure of `opened_exercises` (`lib.rs` lines 238-246) does; `none`
models the `expect` panic on a stored key that no longer parses. -/
def rowToOpened (r : Row) : Option OpenedExercise :=
  match ExerciseDefinition.new (some r.chapter) (some r.exercise) with
  | .ok d => some { definition := d, solved := r.solved }
  | .error _ => none

/-- Model of `opened_exercises` (`lib.rs` lines 232-250): reconstruct
every row and collect into a `BTreeSet<OpenedExercise>`; `none` models
the panic on an unparsable stored key. -/
def openedExercises (db : List Row) : Option (List OpenedExercise) :=
  (db.mapM rowToOpened).map (fun l => l.foldl (fun s o => btreeInsertOpened o s) [])

/-- Element test of the `BTreeSet` difference in `next`: `e` has no
`Ordering.eq`-equal element among the opened definitions. -/
def notOpenedIn (opened : List ExerciseDefinition) (e : ExerciseDefinition) : Bool :=
  opened.all (fun o => decide (ExerciseDefinition.cmp e o ≠ Ordering.eq))

/-- Model of `ExerciseCollection::next` (`lib.rs` lines 166-172): collect
the opened definitions into a set and return the first element of the
difference `exercises \ opened` (difference and the choice of the first
element both under the definition order).  The outer `Option` models
abnormal termination of `opened_exercises`. -/
def ExerciseCollection.next (st : CollectionState) : Option (Option ExerciseDefinition) :=
  (openedExercises st.db).map (fun ops =>
    (st.exercises.filter
      (notOpenedIn (btreeOfList (ops.map (fun o => o.definition))))).head?)

/-- Model of `ExerciseCollection::open` (`lib.rs` lines 197-208); named
`openExercise` because `open` is a Lean keyword.  The pair mirrors the
`&mut self` receiver: on error the state component is returned
unchanged. -/
def ExerciseCollection.openExercise (st : CollectionState) (ex : ExerciseDefinition) :
    Except String Unit × CollectionState :=
  if btreeContains st.exercises ex = false then
    (.error "The exercise you are trying to open does not exist", st)
  else
    (.ok (), { st with db := insertOrIgnore st.db ex.chapter ex.exercise })

/-- Model of `ExerciseCollection::mark_as_solved` (`lib.rs` lines 175-183). -/
def ExerciseCollection.mark_as_solved (st : CollectionState) (ex : ExerciseDefinition) :
    CollectionState :=
  { st with db := updateSolved st.db ex.chapter ex.exercise true }

/-- Model of `ExerciseCollection::mark_as_unsolved` (`lib.rs` lines 186-194). -/
def ExerciseCollection.mark_as_unsolved (st : CollectionState) (ex : ExerciseDefinition) :
    CollectionState :=
  { st with db := updateSolved st.db ex.chapter ex.exercise false }

/-- Model of one `fs::DirEntry` at the exercise level.  The scan never
inspects the file type at this level, so the flag is carried but
unused. -/
structure ExerciseEntry where
  name : OsStr
  isDir : Bool
deriving DecidableEq, Repr

/-- Model of one readable `fs::DirEntry` at the chapter level: its name,
whether it is a directory, and the outcome of listing it
(`read_dir(entry.path())`), an I/O error message on failure. -/
structure ChapterEntry where
  name : OsStr
  isDir : Bool
  sub : Except String (List ExerciseEntry)
deriving Repr

/-- Chapter-level filter of `ExerciseCollection::new` (`lib.rs` lines
102-114): an entry whose read or file-type query failed (`.error ()`) is
skipped, as is an entry that is not a directory. -/
def chapterFilter : Except Unit ChapterEntry → Option ChapterEntry
  | .ok c => if c.isDir then some c else none
  | .error _ => none

/-- Chapter-level filtering of `ExerciseCollection::new` (`lib.rs` lines
100-114). -/
def chapterDirs (rootEntries : List (Except Unit ChapterEntry)) : List ChapterEntry :=
  rootEntries.filterMap chapterFilter

/-- Name pairs contributed by one chapter (`lib.rs` lines 116-122): list
the chapter directory and pair its name with every entry name; a listing
failure is the `unwrap` panic, modelled as an error. -/
def chapterPairs (c : ChapterEntry) : Except String (List (OsStr × OsStr)) :=
  c.sub.map (fun es => es.map (fun x => (c.name, x.name)))

/-- Name pairs of a chapter whose listing succeeded (defaulting to the
empty list on a failed listing); equals the payload of `chapterPairs` in
the success case. -/
def subPairsD (c : ChapterEntry) : List (OsStr × OsStr) :=
  match c.sub with
  | .ok es => es.map (fun x => (c.name, x.name))
  | .error _ => []

/-- Final step of discovery: on successfully listed chapters, drop the
name pairs that fail to parse and collect the rest into the sorted set;
a listing failure propagates (it is the `unwrap` panic of the scan). -/
def collectFromPairs :
    Except String (List (List (OsStr × OsStr))) → Except String (List ExerciseDefinition)
  | .error e => .error e
  | .ok pss =>
      .ok (btreeOfList ((pss.flatten).filterMap
        (fun p => (ExerciseDefinition.new p.1 p.2).toOption)))

/-- Discovery core of `ExerciseCollection::new` (`lib.rs` lines 100-124):
pair chapter names with exercise entry names, drop pairs that fail to
parse, and collect the rest into the sorted set.  An error is the
abnormal termination (panic) caused by an unreadable chapter
directory. -/
def collectExercises (rootEntries : List (Except Unit ChapterEntry)) :
    Except String (List ExerciseDefinition) :=
  collectFromPairs ((chapterDirs rootEntries).mapM chapterPairs)

/-- Model of `ExerciseCollection::new` (`lib.rs` lines 99-148): the root
listing result is `Except` (its failure is reported as a context error),
discovery is `collectExercises`, and `db` carries the contents of the
opened (or freshly created, hence empty) `progress.db` table. -/
def ExerciseCollection.new (exercisesDir : List String) :
    Except String (List (Except Unit ChapterEntry)) → List Row →
      Except String CollectionState
  | .error _, _ => .error "Failed to read the workshop-runner directory"
  | .ok entries, db =>
      (collectExercises entries).map
        (fun exs => { exercises_dir := exercisesDir, exercises := exs, db := db })

/-- Model of `Verification` (`lib.rs` lines 32-39). -/
structure Verification where
  command : String
  args : List String
deriving DecidableEq, Repr

/-- Model of `ExerciseConfig` (`lib.rs` lines 23-30): the per-exercise
configuration, whose `verification` field defaults to the empty list when
the file does not mention it. -/
structure ExerciseConfig where
  verification : List Verification
deriving DecidableEq, Repr

/-- Model of a configured `std::process::Command`: program, arguments,
and the working directory it is run from (`none` = inherited). -/
structure Cmd where
  program : String
  args : List String
  currentDir : Option (List String)
deriving DecidableEq, Repr

/-- Model of `std::process::Output`: exit-status success flag and the
captured stdout and stderr byte streams. -/
structure CmdOutput where
  statusSuccess : Bool
  stdout : List Nat
  stderr : List Nat
deriving DecidableEq, Repr

/-- Model of `TestOutcome` (`main.rs` lines 374-378).  The source stores
the command line as its `Debug` rendering; the model carries the command
value itself, which determines that rendering. -/
inductive TestOutcome where
  | success
  | failure (command : Cmd) (details : List Nat)
deriving DecidableEq, Repr

/-- Model of the `--color` option value chosen in `_verify`
(`main.rs` lines 294-298). -/
def colorOption (useAnsiColours : Bool) : String :=
  if useAnsiColours then "always" else "never"

/-- Path of the exercise manifest, `ExerciseDefinition::manifest_path`
(`lib.rs` lines 340-347), as path segments. -/
def manifestPath (exercisesDir : List String) (d : ExerciseDefinition) : List String :=
  exercisesDir ++ [d.chapter, d.exercise, "Cargo.toml"]

/-- Join path segments for use as a single command argument. -/
def pathString (p : List String) : String :=
  String.intercalate "/" p

/-- The `cargo build` command assembled by `_verify`
(`main.rs` lines 300-317). -/
def buildCmd (manifest : List String) (verbose useAnsiColours : Bool) : Cmd :=
  { program := "cargo"
  , args := ["build", "--manifest-path", pathString manifest, "--all-targets",
      "--color", colorOption useAnsiColours] ++ (if verbose then [] else ["-q"])
  , currentDir := none }

/-- The synthetic default `cargo test` command of `_verify`
(`main.rs` lines 338-349), used when the resolved verification list is
empty. -/
def defaultTestCmd (verbose useAnsiColours : Bool) : Cmd :=
  { program := "cargo"
  , args := ["test", "--color", colorOption useAnsiColours] ++
      (if verbose then [] else ["-q"])
  , currentDir := none }

/-- A configured verification step as a command (`main.rs` lines 330-337). -/
def stepCmd (v : Verification) : Cmd :=
  { program := v.command, args := v.args, currentDir := none }

/-- Set the working directory of a command (`main.rs` lines 350-357). -/
def withCurrentDir (dir : List String) (c : Cmd) : Cmd :=
  { c with currentDir := some dir }

/-- The list of commands the verification stage of `_verify` will run
(`main.rs` lines 330-357): the configured steps, or the single default
test command when there are none, every one run from the exercise
directory. -/
def verificationCommands (verification : List Verification)
    (verbose useAnsiColours : Bool) (exerciseDir : List String) : List Cmd :=
  let cmds := verification.map stepCmd
  let cmds := if cmds.isEmpty then [defaultTestCmd verbose useAnsiColours] else cmds
  cmds.map (withCurrentDir exerciseDir)

/-- The verification-stage loop of `_verify` (`main.rs` lines 358-371):
run the commands in order; the first non-zero exit yields a `Failure`
carrying that command and its stderr followed by its stdout; otherwise
`Success`.  `exec` is the oracle giving each spawned command its
output. -/
def runVerificationCmds (exec : Cmd → CmdOutput) : List Cmd → TestOutcome
  | [] => .success
  | c :: cs =>
      let o := exec c
      if o.statusSuccess then runVerificationCmds exec cs
      else .failure c (o.stderr ++ o.stdout)

/-- Model of `_verify` (`main.rs` lines 286-372): optional build stage,
then the verification stage. -/
def verifyPipeline (exec : Cmd → CmdOutput) (manifest : List String)
    (verification : List Verification) (skipBuild verbose useAnsiColours : Bool) :
    TestOutcome :=
  let stage2 := runVerificationCmds exec
    (verificationCommands verification verbose useAnsiColours manifest.dropLast)
  if skipBuild then stage2
  else
    let bc := buildCmd manifest verbose useAnsiColours
    let o := exec bc
    if o.statusSuccess then stage2 else .failure bc (o.stderr ++ o.stdout)

/-- The configuration-precedence step of `verify` (`main.rs` lines
261-266): when a per-exercise configuration was read from disk, its
verification list is used (even when empty); otherwise the
collection-wide list is used. -/
def resolveSteps (exerciseConfig : Option ExerciseConfig)
    (verification : List Verification) : List Verification :=
  match exerciseConfig with
  | some c => c.verification
  | none => verification

/-- Outcome recording of `verify` (`main.rs` lines 273-283): success
marks the exercise solved, failure marks it unsolved, in both cases
returning the outcome unchanged. -/
def verifyRecord (st : CollectionState) (d : ExerciseDefinition) :
    TestOutcome → TestOutcome × CollectionState
  | .success => (.success, ExerciseCollection.mark_as_solved st d)
  | .failure c b => (.failure c b, ExerciseCollection.mark_as_unsolved st d)

/-- Model of `verify` (`main.rs` lines 254-284): resolve the steps, run
the pipeline, then unconditionally record the outcome in the progress
store (solved on success, unsolved on failure).  `exerciseConfig` is the
per-exercise configuration read from disk by `definition.config`
(`none` when the file does not exist). -/
def verify (exec : Cmd → CmdOutput) (st : CollectionState) (d : ExerciseDefinition)
    (verification : List Verification) (exerciseConfig : Option ExerciseConfig)
    (skipBuild verbose useAnsiColours : Bool) : TestOutcome × CollectionState :=
  verifyRecord st d (verifyPipeline exec (manifestPath st.exercises_dir d)
    (resolveSteps exerciseConfig verification) skipBuild verbose useAnsiColours)

/-- Specification-side definition, following the words of the claims on
the parsing contract: a directory name of the canonical form
`NN_name`, i.e. matching `(\d{2})_(\w+)` anchored at both ends (exactly
two digits, one underscore, then one or more word characters). -/
def matchesAnchoredPattern (s : String) : Bool :=
  match s.data with
  | d1 :: d2 :: u :: rest =>
      d1.isDigit && d2.isDigit && u == '_' && !rest.isEmpty && rest.all isWordChar
  | _ => false

/-! Helper lemmas about the definition order. -/

theorem cmp_eq_eq_iff (a b : ExerciseDefinition) :
    a.cmp b = .eq ↔ a.chapter_number = b.chapter_number ∧ a.number = b.number := by
  unfold ExerciseDefinition.cmp
  rcases h : compare a.chapter_number b.chapter_number with _ | _ | _ <;>
    simp only [Ordering.then]
  · rw [Nat.compare_eq_lt] at h
    constructor
    · intro hc; cases hc
    · intro hc; omega
  · rw [Nat.compare_eq_eq] at h
    rw [Nat.compare_eq_eq]
    constructor
    · intro hn; exact ⟨h, hn⟩
    · intro hc; exact hc.2
  · rw [Nat.compare_eq_gt] at h
    constructor
    · intro hc; cases hc
    · intro hc; omega

theorem cmp_eq_lt_iff (a b : ExerciseDefinition) :
    a.cmp b = .lt ↔ a.chapter_number < b.chapter_number ∨
      (a.chapter_number = b.chapter_number ∧ a.number < b.number) := by
  unfold ExerciseDefinition.cmp
  rcases h : compare a.chapter_number b.chapter_number with _ | _ | _ <;>
    simp only [Ordering.then]
  · rw [Nat.compare_eq_lt] at h
    simp only [true_iff]
    left; exact h
  · rw [Nat.compare_eq_eq] at h
    rw [Nat.compare_eq_lt]
    omega
  · rw [Nat.compare_eq_gt] at h
    constructor
    · intro hc; cases hc
    · intro hc; omega

theorem cmp_eq_gt_iff (a b : ExerciseDefinition) :
    a.cmp b = .gt ↔ b.cmp a = .lt := by
  rw [cmp_eq_lt_iff]
  unfold ExerciseDefinition.cmp
  rcases h : compare a.chapter_number b.chapter_number with _ | _ | _ <;>
    simp only [Ordering.then]
  · rw [Nat.compare_eq_lt] at h
    constructor
    · intro hc; cases hc
    · intro hc; omega
  · rw [Nat.compare_eq_eq] at h
    rw [Nat.compare_eq_gt]
    omega
  · rw [Nat.compare_eq_gt] at h
    simp only [true_iff]
    left; exact h

theorem cmp_lt_trans {a b c : ExerciseDefinition}
    (h1 : a.cmp b = .lt) (h2 : b.cmp c = .lt) : a.cmp c = .lt := by
  rw [cmp_eq_lt_iff] at h1 h2 ⊢
  omega

theorem cmp_self (a : ExerciseDefinition) : a.cmp a = .eq := by
  rw [cmp_eq_eq_iff]; exact ⟨rfl, rfl⟩

theorem cmp_eq_trans {a b c : ExerciseDefinition}
    (h1 : a.cmp b = .eq) (h2 : b.cmp c = .eq) : a.cmp c = .eq := by
  rw [cmp_eq_eq_iff] at h1 h2 ⊢
  omega

theorem cmp_eq_symm {a b : ExerciseDefinition} (h : a.cmp b = .eq) : b.cmp a = .eq := by
  rw [cmp_eq_eq_iff] at h ⊢
  omega

theorem cmp_lt_of_lt_of_eq {a b c : ExerciseDefinition}
    (h1 : a.cmp b = .lt) (h2 : b.cmp c = .eq) : a.cmp c = .lt := by
  rw [cmp_eq_lt_iff] at h1 ⊢
  rw [cmp_eq_eq_iff] at h2
  omega

/-- Claim C5: the comparison order on `ExerciseDefinition` is a strict
total order determined solely by the pair (chapter number, exercise
number) and independent of the name fields, with (01, 05) preceding
(02, 00); equality is structural over all four fields, so two
definitions with equal numbers but different names compare as equal
under `cmp` (neither less nor greater) and yet are not equal. -/
theorem definition_order_by_numbers_and_structural_equality :
    (∀ a b : ExerciseDefinition,
        (a.cmp b = .lt ↔ a.chapter_number < b.chapter_number ∨
          (a.chapter_number = b.chapter_number ∧ a.number < b.number))
      ∧ (a.cmp b = .eq ↔ a.chapter_number = b.chapter_number ∧ a.number = b.number)
      ∧ (a.cmp b = .gt ↔ b.cmp a = .lt))
    ∧ (∀ a b a' b' : ExerciseDefinition,
        a.chapter_number = a'.chapter_number → a.number = a'.number →
        b.chapter_number = b'.chapter_number → b.number = b'.number →
        a.cmp b = a'.cmp b')
    ∧ (∀ a : ExerciseDefinition, a.cmp a = .eq)
    ∧ (∀ a b c : ExerciseDefinition, a.cmp b = .lt → b.cmp c = .lt → a.cmp c = .lt)
    ∧ (∀ a b : ExerciseDefinition, a = b ↔ a.chapter_name = b.chapter_name ∧
        a.chapter_number = b.chapter_number ∧ a.name = b.name ∧ a.number = b.number)
    ∧ ExerciseDefinition.cmp ⟨"a", 1, "x", 5⟩ ⟨"a", 2, "y", 0⟩ = .lt
    ∧ ExerciseDefinition.cmp ⟨"a", 3, "x", 7⟩ ⟨"b", 3, "y", 7⟩ = .eq
    ∧ (⟨"a", 3, "x", 7⟩ : ExerciseDefinition) ≠ ⟨"b", 3, "y", 7⟩ := by
  refine ⟨fun a b => ⟨cmp_eq_lt_iff a b, cmp_eq_eq_iff a b, cmp_eq_gt_iff a b⟩,
    ?_, cmp_self, fun a b c => cmp_lt_trans, ?_, by decide, by decide, by decide⟩
  · intro a b a' b' h1 h2 h3 h4
    unfold ExerciseDefinition.cmp
    rw [h1, h2, h3, h4]
  · intro a b
    constructor
    · intro h; rw [h]; exact ⟨rfl, rfl, rfl, rfl⟩
    · intro ⟨h1, h2, h3, h4⟩
      cases a; cases b
      simp only at h1 h2 h3 h4
      rw [h1, h2, h3, h4]

/-- Witness for claim C5: the independence component applied at a
concrete input. -/
theorem definition_order_by_numbers_witness :
    ExerciseDefinition.cmp ⟨"aa", 1, "xx", 5⟩ ⟨"bb", 2, "yy", 6⟩ =
      ExerciseDefinition.cmp ⟨"cc", 1, "zz", 5⟩ ⟨"dd", 2, "ww", 6⟩ :=
  definition_order_by_numbers_and_structural_equality.2.1
    ⟨"aa", 1, "xx", 5⟩ ⟨"bb", 2, "yy", 6⟩ ⟨"cc", 1, "zz", 5⟩ ⟨"dd", 2, "ww", 6⟩
    rfl rfl rfl rfl

/-! Helper lemmas about digit characters and the parse and render
functions. -/

theorem isDigit_iff (c : Char) : c.isDigit = true ↔ 48 ≤ c.toNat ∧ c.toNat ≤ 57 := by
  simp only [Char.isDigit, ge_iff_le, Bool.and_eq_true, decide_eq_true_eq]
  show (48 : UInt32) ≤ c.val ∧ c.val ≤ 57 ↔ _
  rw [UInt32.le_def, UInt32.le_def, BitVec.le_def, BitVec.le_def]
  show 48 ≤ c.val.toBitVec.toNat ∧ c.val.toBitVec.toNat ≤ 57 ↔ _
  rfl

theorem digitVal_le_nine {c : Char} (h : c.isDigit = true) : digitVal c ≤ 9 := by
  have h' := (isDigit_iff c).mp h
  unfold digitVal
  omega

theorem digitChar_digitVal {c : Char} (h : c.isDigit = true) : digitChar (digitVal c) = c := by
  have h' := (isDigit_iff c).mp h
  unfold digitChar digitVal
  rw [Nat.add_sub_cancel' h'.1]
  exact Char.ofNat_toNat c

theorem digitVal_digitChar {v : Nat} (h : v ≤ 9) : digitVal (digitChar v) = v := by
  interval_cases v <;> decide

theorem isDigit_digitChar {v : Nat} (h : v ≤ 9) : (digitChar v).isDigit = true := by
  interval_cases v <;> decide

theorem renderNum2_two_digits {v1 v2 : Nat} (h1 : v1 ≤ 9) (h2 : v2 ≤ 9) :
    renderNum2 (v1 * 10 + v2) = [digitChar v1, digitChar v2] := by
  interval_cases v1 <;> interval_cases v2 <;> decide

theorem string_mk_data (s : String) : String.mk s.data = s := by
  cases s; rfl

theorem captureAt_canonical {d1 d2 : Char} {nm : List Char}
    (h1 : d1.isDigit = true) (h2 : d2.isDigit = true) (hne : nm ≠ [])
    (hw : ∀ c ∈ nm, isWordChar c = true) :
    captureAt (d1 :: d2 :: '_' :: nm) = some (digitVal d1 * 10 + digitVal d2, nm) := by
  have htw : nm.takeWhile isWordChar = nm := List.takeWhile_eq_self_iff.mpr hw
  have hemp : nm.isEmpty = false := List.isEmpty_eq_false.mpr hne
  simp [captureAt, htw, h1, h2, hemp]

theorem findCapture_canonical {d1 d2 : Char} {nm : List Char}
    (h1 : d1.isDigit = true) (h2 : d2.isDigit = true) (hne : nm ≠ [])
    (hw : ∀ c ∈ nm, isWordChar c = true) :
    findCapture (d1 :: d2 :: '_' :: nm) = some (digitVal d1 * 10 + digitVal d2, nm) := by
  rw [findCapture, captureAt_canonical h1 h2 hne hw]

theorem captureAt_ok {l : List Char} {n : Nat} {nm : List Char}
    (h : captureAt l = some (n, nm)) :
    n ≤ 99 ∧ nm ≠ [] ∧ ∀ c ∈ nm, isWordChar c = true := by
  rcases l with _ | ⟨d1, _ | ⟨d2, _ | ⟨u, rest⟩⟩⟩
  · exact Option.noConfusion h
  · exact Option.noConfusion h
  · exact Option.noConfusion h
  · simp only [captureAt] at h
    split at h
    · rename_i hcond
      injection h with h'
      injection h' with hn hnm
      subst hn
      subst hnm
      simp only [Bool.and_eq_true] at hcond
      obtain ⟨⟨⟨hd1, hd2⟩, _⟩, hemp⟩ := hcond
      refine ⟨?_, ?_, ?_⟩
      · have b1 := digitVal_le_nine hd1
        have b2 := digitVal_le_nine hd2
        omega
      · simpa using hemp
      · intro c hc
        exact List.mem_takeWhile_imp hc
    · exact Option.noConfusion h

theorem findCapture_ok {l : List Char} {n : Nat} {nm : List Char}
    (h : findCapture l = some (n, nm)) :
    n ≤ 99 ∧ nm ≠ [] ∧ ∀ c ∈ nm, isWordChar c = true := by
  induction l with
  | nil => exact Option.noConfusion h
  | cons c cs ih =>
      rw [findCapture] at h
      cases hca : captureAt (c :: cs) with
      | some r =>
          rw [hca] at h
          injection h with h'
          subst h'
          exact captureAt_ok hca
      | none =>
          rw [hca] at h
          exact ih h

theorem parseDirName_ok {s : OsStr} {kind : String} {nm : String} {n : Nat}
    (h : parseDirName s kind = .ok (nm, n)) :
    ∃ str, s = some str ∧ findCapture str.data = some (n, nm.data) ∧
      n ≤ 99 ∧ nm.data ≠ [] ∧ ∀ c ∈ nm.data, isWordChar c = true := by
  cases s with
  | none => exact Except.noConfusion h
  | some str =>
      rw [show parseDirName (some str) kind = parseCapture str kind (findCapture str.data)
        from rfl] at h
      cases hfc : findCapture str.data with
      | none =>
          rw [hfc] at h
          exact Except.noConfusion h
      | some r =>
          rw [hfc] at h
          obtain ⟨rn, rnm⟩ := r
          simp only [parseCapture] at h
          injection h with h'
          injection h' with hnm hn
          subst hn
          have hd : nm.data = rnm := by rw [← hnm]
          rw [hd]
          exact ⟨str, rfl, hfc, findCapture_ok hfc⟩

theorem new_ok_elim {c k : OsStr} {d : ExerciseDefinition}
    (h : ExerciseDefinition.new c k = .ok d) :
    ∃ sc sk, c = some sc ∧ k = some sk ∧
      findCapture sk.data = some (d.number, d.name.data) ∧
      findCapture sc.data = some (d.chapter_number, d.chapter_name.data) := by
  unfold ExerciseDefinition.new at h
  cases hk : parseDirName k "exercise" with
  | error e =>
      rw [hk] at h
      exact Except.noConfusion h
  | ok p =>
      rw [hk] at h
      obtain ⟨nme, ne⟩ := p
      cases hc : parseDirName c "chapter" with
      | error e =>
          rw [hc] at h
          exact Except.noConfusion h
      | ok q =>
          rw [hc] at h
          obtain ⟨nmc, nc⟩ := q
          simp only [Except.bind, Except.map, ExerciseDefinition.ofParsed] at h
          injection h with h'
          subst h'
          obtain ⟨sk, hks, hfk, _⟩ := parseDirName_ok hk
          obtain ⟨sc, hcs, hfc, _⟩ := parseDirName_ok hc
          exact ⟨sc, sk, hcs, hks, hfk, hfc⟩

theorem matchesAnchored_elim {s : String} (h : matchesAnchoredPattern s = true) :
    ∃ d1 d2 nm, s.data = d1 :: d2 :: '_' :: nm ∧ d1.isDigit = true ∧
      d2.isDigit = true ∧ nm ≠ [] ∧ ∀ c ∈ nm, isWordChar c = true := by
  unfold matchesAnchoredPattern at h
  rcases hd : s.data with _ | ⟨d1, _ | ⟨d2, _ | ⟨u, rest⟩⟩⟩ <;> rw [hd] at h
  · exact Bool.noConfusion h
  · exact Bool.noConfusion h
  · exact Bool.noConfusion h
  · simp only [Bool.and_eq_true, beq_iff_eq, Bool.not_eq_true', List.all_eq_true,
      List.isEmpty_eq_false] at h
    obtain ⟨⟨⟨⟨h1, h2⟩, hu⟩, hne⟩, hw⟩ := h
    subst hu
    exact ⟨d1, d2, rest, rfl, h1, h2, hne, hw⟩

theorem matchesAnchored_intro {d1 d2 : Char} {nm : List Char}
    (h1 : d1.isDigit = true) (h2 : d2.isDigit = true) (hne : nm ≠ [])
    (hw : ∀ c ∈ nm, isWordChar c = true) :
    matchesAnchoredPattern (String.mk (d1 :: d2 :: '_' :: nm)) = true := by
  have hemp : nm.isEmpty = false := List.isEmpty_eq_false.mpr hne
  simp [matchesAnchoredPattern, h1, h2, hemp]
  exact hw

/-- Claim C8: for every pair of chapter and exercise directory names of
the canonical form `NN_name` (exactly two digits, an underscore, then
word characters), parsing them into a definition and re-rendering via
`chapter()` and `exercise()` yields back exactly the original
strings. -/
theorem parse_render_roundtrip (cs es : String)
    (hc : matchesAnchoredPattern cs = true) (he : matchesAnchoredPattern es = true) :
    ∃ d, ExerciseDefinition.new (some cs) (some es) = .ok d ∧
      d.chapter = cs ∧ d.exercise = es := by
  obtain ⟨c1, c2, cnm, hcd, hc1, hc2, hcne, hcw⟩ := matchesAnchored_elim hc
  obtain ⟨e1, e2, enm, hed, he1, he2, hene, hew⟩ := matchesAnchored_elim he
  have hnew : ExerciseDefinition.new (some cs) (some es) =
      .ok ⟨String.mk cnm, digitVal c1 * 10 + digitVal c2,
        String.mk enm, digitVal e1 * 10 + digitVal e2⟩ := by
    simp only [ExerciseDefinition.new, parseDirName, hcd, hed,
      findCapture_canonical hc1 hc2 hcne hcw, findCapture_canonical he1 he2 hene hew,
      parseCapture, Except.bind, Except.map, ExerciseDefinition.ofParsed]
  have hch : (⟨String.mk cnm, digitVal c1 * 10 + digitVal c2,
      String.mk enm, digitVal e1 * 10 + digitVal e2⟩ : ExerciseDefinition).chapter = cs := by
    show String.mk (renderNum2 (digitVal c1 * 10 + digitVal c2) ++ '_' :: cnm) = cs
    rw [renderNum2_two_digits (digitVal_le_nine hc1) (digitVal_le_nine hc2),
      digitChar_digitVal hc1, digitChar_digitVal hc2]
    simp only [List.cons_append, List.nil_append]
    rw [← hcd]
  have hex : (⟨String.mk cnm, digitVal c1 * 10 + digitVal c2,
      String.mk enm, digitVal e1 * 10 + digitVal e2⟩ : ExerciseDefinition).exercise = es := by
    show String.mk (renderNum2 (digitVal e1 * 10 + digitVal e2) ++ '_' :: enm) = es
    rw [renderNum2_two_digits (digitVal_le_nine he1) (digitVal_le_nine he2),
      digitChar_digitVal he1, digitChar_digitVal he2]
    simp only [List.cons_append, List.nil_append]
    rw [← hed]
  exact ⟨_, hnew, hch, hex⟩

/-- Witness for claim C8 at the concrete pair `01_intro`, `00_hello`. -/
theorem parse_render_roundtrip_witness :
    ∃ d, ExerciseDefinition.new (some "01_intro") (some "00_hello") = .ok d ∧
      d.chapter = "01_intro" ∧ d.exercise = "00_hello" :=
  parse_render_roundtrip "01_intro" "00_hello" (by decide) (by decide)

/-- Claim C10: every successfully constructed definition has chapter and
exercise numbers at most 99, `chapter()` and `exercise()` render exactly
the canonical two-digit zero-padded `NN_name` form, and re-parsing the
rendered strings yields a definition structurally equal to the
original. -/
theorem new_bounds_and_render_reparse (c k : OsStr) (d : ExerciseDefinition)
    (h : ExerciseDefinition.new c k = .ok d) :
    d.chapter_number ≤ 99 ∧ d.number ≤ 99 ∧
    matchesAnchoredPattern d.chapter = true ∧
    matchesAnchoredPattern d.exercise = true ∧
    ExerciseDefinition.new (some d.chapter) (some d.exercise) = .ok d := by
  obtain ⟨sc, sk, hcs, hks, hfk, hfc⟩ := new_ok_elim h
  obtain ⟨hn99, hnne, hnw⟩ := findCapture_ok hfk
  obtain ⟨hc99, hcne, hcw⟩ := findCapture_ok hfc
  have hcd10 : d.chapter_number / 10 ≤ 9 := by omega
  have hcm10 : d.chapter_number % 10 ≤ 9 := by omega
  have hnd10 : d.number / 10 ≤ 9 := by omega
  have hnm10 : d.number % 10 ≤ 9 := by omega
  have hrc : renderNum2 d.chapter_number =
      [digitChar (d.chapter_number / 10), digitChar (d.chapter_number % 10)] := by
    have hdm : d.chapter_number / 10 * 10 + d.chapter_number % 10 = d.chapter_number := by
      omega
    have h2 := renderNum2_two_digits hcd10 hcm10
    rw [hdm] at h2
    exact h2
  have hrn : renderNum2 d.number =
      [digitChar (d.number / 10), digitChar (d.number % 10)] := by
    have hdm : d.number / 10 * 10 + d.number % 10 = d.number := by omega
    have h2 := renderNum2_two_digits hnd10 hnm10
    rw [hdm] at h2
    exact h2
  have hch : d.chapter = String.mk (digitChar (d.chapter_number / 10) ::
      digitChar (d.chapter_number % 10) :: '_' :: d.chapter_name.data) := by
    show String.mk (renderNum2 d.chapter_number ++ '_' :: d.chapter_name.data) = _
    rw [hrc]
    rfl
  have hex : d.exercise = String.mk (digitChar (d.number / 10) ::
      digitChar (d.number % 10) :: '_' :: d.name.data) := by
    show String.mk (renderNum2 d.number ++ '_' :: d.name.data) = _
    rw [hrn]
    rfl
  have hfcc : findCapture (d.chapter).data =
      some (d.chapter_number, d.chapter_name.data) := by
    rw [hch]
    show findCapture (digitChar (d.chapter_number / 10) ::
      digitChar (d.chapter_number % 10) :: '_' :: d.chapter_name.data) = _
    rw [findCapture_canonical (isDigit_digitChar hcd10) (isDigit_digitChar hcm10)
      hcne hcw, digitVal_digitChar hcd10, digitVal_digitChar hcm10]
    have hdm : d.chapter_number / 10 * 10 + d.chapter_number % 10 = d.chapter_number := by
      omega
    rw [hdm]
  have hfce : findCapture (d.exercise).data = some (d.number, d.name.data) := by
    rw [hex]
    show findCapture (digitChar (d.number / 10) ::
      digitChar (d.number % 10) :: '_' :: d.name.data) = _
    rw [findCapture_canonical (isDigit_digitChar hnd10) (isDigit_digitChar hnm10)
      hnne hnw, digitVal_digitChar hnd10, digitVal_digitChar hnm10]
    have hdm : d.number / 10 * 10 + d.number % 10 = d.number := by omega
    rw [hdm]
  refine ⟨hc99, hn99, ?_, ?_, ?_⟩
  · rw [hch]
    exact matchesAnchored_intro (isDigit_digitChar hcd10) (isDigit_digitChar hcm10)
      hcne hcw
  · rw [hex]
    exact matchesAnchored_intro (isDigit_digitChar hnd10) (isDigit_digitChar hnm10)
      hnne hnw
  · cases hcstr : d.chapter
    case _ cdata =>
      cases hestr : d.exercise
      case _ edata =>
        rw [hcstr] at hfcc
        rw [hestr] at hfce
        simp only [ExerciseDefinition.new, parseDirName, hfcc, hfce, parseCapture,
          Except.bind, Except.map, ExerciseDefinition.ofParsed]

/-- Witness for claim C10 at the concrete pair `01_a`, `02_b`. -/
theorem new_bounds_and_render_reparse_witness :
    (⟨"a", 1, "b", 2⟩ : ExerciseDefinition).chapter_number ≤ 99 ∧
    (⟨"a", 1, "b", 2⟩ : ExerciseDefinition).number ≤ 99 ∧
    matchesAnchoredPattern (⟨"a", 1, "b", 2⟩ : ExerciseDefinition).chapter = true ∧
    matchesAnchoredPattern (⟨"a", 1, "b", 2⟩ : ExerciseDefinition).exercise = true ∧
    ExerciseDefinition.new (some (⟨"a", 1, "b", 2⟩ : ExerciseDefinition).chapter)
      (some (⟨"a", 1, "b", 2⟩ : ExerciseDefinition).exercise) = .ok ⟨"a", 1, "b", 2⟩ :=
  new_bounds_and_render_reparse (some "01_a") (some "02_b") ⟨"a", 1, "b", 2⟩ rfl

/-- Counterexample to claim C4: construction succeeds on the exercise
directory name `x01_b`, which is valid UTF-8 but does not match
`(\d{2})_(\w+)` anchored as a whole; the unanchored regex of the source
accepts it through the embedded substring `01_b`. -/
theorem parse_not_anchored_counterexample :
    (ExerciseDefinition.new (some "01_a") (some "x01_b")).isOk = true ∧
    matchesAnchoredPattern "x01_b" = false ∧
    ExerciseDefinition.new (some "01_a") (some "x01_b") =
      .ok ⟨"a", 1, "b", 1⟩ := by
  refine ⟨rfl, rfl, rfl⟩

/-- Claim C4 (amended): construction succeeds exactly when each
directory name is valid UTF-8 text and contains a substring matching
`(\d{2})_(\w+)` (the regex is unanchored); the leftmost match provides
the two-digit number and the maximal word-character run after the
underscore as the name; a name with no such substring fails with an
error identifying the offending string (the exercise name is parsed
first). -/
theorem new_ok_iff_contains_match (c k : OsStr) :
    ((ExerciseDefinition.new c k).isOk = true ↔
      (∃ sc, c = some sc ∧ (findCapture sc.data).isSome = true) ∧
      (∃ sk, k = some sk ∧ (findCapture sk.data).isSome = true))
    ∧ (k = none → ExerciseDefinition.new c k = .error (.notUtf8 "exercise"))
    ∧ (∀ sk, k = some sk → findCapture sk.data = none →
        ExerciseDefinition.new c k = .error (.noMatch sk "exercise"))
    ∧ (∀ sk, k = some sk → (findCapture sk.data).isSome = true → c = none →
        ExerciseDefinition.new c k = .error (.notUtf8 "chapter"))
    ∧ (∀ sc sk, c = some sc → k = some sk → (findCapture sk.data).isSome = true →
        findCapture sc.data = none →
        ExerciseDefinition.new c k = .error (.noMatch sc "chapter"))
    ∧ (∀ sc sk nc nmc nk nmk, c = some sc → k = some sk →
        findCapture sc.data = some (nc, nmc) → findCapture sk.data = some (nk, nmk) →
        ExerciseDefinition.new c k = .ok ⟨String.mk nmc, nc, String.mk nmk, nk⟩) := by
  cases k with
  | none =>
      refine ⟨?_, fun _ => rfl, ?_, ?_, ?_, ?_⟩
      · constructor
        · intro h
          rw [show ExerciseDefinition.new c none = .error (.notUtf8 "exercise")
            from rfl] at h
          exact Bool.noConfusion h
        · rintro ⟨_, ⟨sk, hsk, _⟩⟩
          exact Option.noConfusion hsk
      · intro sk hsk
        exact Option.noConfusion hsk
      · intro sk hsk
        exact Option.noConfusion hsk
      · intro sc sk _ hsk
        exact Option.noConfusion hsk
      · intro sc sk nc nmc nk nmk _ hsk
        exact Option.noConfusion hsk
  | some sk =>
      cases hfk : findCapture sk.data with
      | none =>
          have hnew : ExerciseDefinition.new c (some sk) =
              .error (.noMatch sk "exercise") := by
            simp only [ExerciseDefinition.new, parseDirName, hfk, parseCapture,
              Except.bind]
          refine ⟨?_, ?_, ?_, ?_, ?_, ?_⟩
          · rw [hnew]
            constructor
            · intro h
              exact Bool.noConfusion h
            · rintro ⟨_, ⟨sk', hsk', hfk'⟩⟩
              injection hsk' with he
              subst he
              rw [hfk] at hfk'
              exact Bool.noConfusion hfk'
          · intro hk
            exact Option.noConfusion hk
          · intro sk' hsk' _
            injection hsk' with he
            subst he
            exact hnew
          · intro sk' hsk' hfk'
            injection hsk' with he
            subst he
            rw [hfk] at hfk'
            exact Bool.noConfusion hfk'
          · intro sc sk' _ hsk' hfk'
            injection hsk' with he
            subst he
            rw [hfk] at hfk'
            exact Bool.noConfusion hfk'
          · intro sc sk' nc nmc nk nmk _ hsk' _ hfk'
            injection hsk' with he
            subst he
            rw [hfk] at hfk'
            exact Option.noConfusion hfk'
      | some pk =>
          obtain ⟨nk, nmk⟩ := pk
          cases c with
          | none =>
              have hnew : ExerciseDefinition.new none (some sk) =
                  .error (.notUtf8 "chapter") := by
                simp only [ExerciseDefinition.new, parseDirName, hfk, parseCapture,
                  Except.bind, Except.map]
              refine ⟨?_, ?_, ?_, ?_, ?_, ?_⟩
              · rw [hnew]
                constructor
                · intro h
                  exact Bool.noConfusion h
                · rintro ⟨⟨sc, hsc, _⟩, _⟩
                  exact Option.noConfusion hsc
              · intro hk
                exact Option.noConfusion hk
              · intro sk' hsk' hfk'
                injection hsk' with he
                subst he
                rw [hfk] at hfk'
                exact Option.noConfusion hfk'
              · intro sk' _ _ _
                exact hnew
              · intro sc sk' hsc
                exact Option.noConfusion hsc
              · intro sc sk' nc nmc nk' nmk' hsc
                exact Option.noConfusion hsc
          | some sc =>
              cases hfc : findCapture sc.data with
              | none =>
                  have hnew : ExerciseDefinition.new (some sc) (some sk) =
                      .error (.noMatch sc "chapter") := by
                    simp only [ExerciseDefinition.new, parseDirName, hfk, hfc,
                      parseCapture, Except.bind, Except.map]
                  refine ⟨?_, ?_, ?_, ?_, ?_, ?_⟩
                  · rw [hnew]
                    constructor
                    · intro h
                      exact Bool.noConfusion h
                    · rintro ⟨⟨sc', hsc', hfc'⟩, _⟩
                      injection hsc' with he
                      subst he
                      rw [hfc] at hfc'
                      exact Bool.noConfusion hfc'
                  · intro hk
                    exact Option.noConfusion hk
                  · intro sk' hsk' hfk'
                    injection hsk' with he
                    subst he
                    rw [hfk] at hfk'
                    exact Option.noConfusion hfk'
                  · intro sk' _ _ hsc
                    exact Option.noConfusion hsc
                  · intro sc' sk' hsc' _ _ _
                    injection hsc' with he
                    subst he
                    exact hnew
                  · intro sc' sk' nc nmc nk' nmk' hsc' _ hfc' _
                    injection hsc' with he
                    subst he
                    rw [hfc] at hfc'
                    exact Option.noConfusion hfc'
              | some pc =>
                  obtain ⟨nc, nmc⟩ := pc
                  have hnew : ExerciseDefinition.new (some sc) (some sk) =
                      .ok ⟨String.mk nmc, nc, String.mk nmk, nk⟩ := by
                    simp only [ExerciseDefinition.new, parseDirName, hfk, hfc,
                      parseCapture, Except.bind, Except.map, ExerciseDefinition.ofParsed]
                  refine ⟨?_, ?_, ?_, ?_, ?_, ?_⟩
                  · rw [hnew]
                    constructor
                    · intro _
                      exact ⟨⟨sc, rfl, by rw [hfc]; rfl⟩, ⟨sk, rfl, by rw [hfk]; rfl⟩⟩
                    · intro _
                      rfl
                  · intro hk
                    exact Option.noConfusion hk
                  · intro sk' hsk' hfk'
                    injection hsk' with he
                    subst he
                    rw [hfk] at hfk'
                    exact Option.noConfusion hfk'
                  · intro sk' _ _ hsc
                    exact Option.noConfusion hsc
                  · intro sc' sk' hsc' _ _ hfc'
                    injection hsc' with he
                    subst he
                    rw [hfc] at hfc'
                    exact Option.noConfusion hfc'
                  · intro sc' sk' nc' nmc' nk' nmk' hsc' hsk' hfc' hfk'
                    injection hsc' with he
                    subst he
                    injection hsk' with he'
                    subst he'
                    rw [hfc] at hfc'
                    rw [hfk] at hfk'
                    injection hfc' with h1
                    injection hfk' with h2
                    injection h1 with h1a h1b
                    injection h2 with h2a h2b
                    subst h1a
                    subst h1b
                    subst h2a
                    subst h2b
                    exact hnew

/-- Witness for claim C4 (amended), applied at the concrete names
`01_a` and `x01_b`. -/
theorem new_ok_iff_contains_match_witness :
    (ExerciseDefinition.new (some "01_a") (some "x01_b")).isOk = true :=
  (new_ok_iff_contains_match (some "01_a") (some "x01_b")).1.mpr
    ⟨⟨"01_a", rfl, rfl⟩, ⟨"x01_b", rfl, rfl⟩⟩

/-! Helper lemmas about the set model and the next-exercise algorithm. -/

/-- An element of the opened set covers `e` when it compares equal to it
under the definition order (this is the membership notion of the
`BTreeSet` difference). -/
def coveredBy (e : ExerciseDefinition) (l : List ExerciseDefinition) : Prop :=
  ∃ o ∈ l, e.cmp o = .eq

theorem coveredBy_nil {a : ExerciseDefinition} : ¬ coveredBy a [] := by
  rintro ⟨o, ho, _⟩
  cases ho

theorem coveredBy_nil_iff {a : ExerciseDefinition} : coveredBy a [] ↔ False :=
  ⟨coveredBy_nil, False.elim⟩

theorem coveredBy_cons {a z : ExerciseDefinition} {l : List ExerciseDefinition} :
    coveredBy a (z :: l) ↔ a.cmp z = .eq ∨ coveredBy a l := by
  unfold coveredBy
  simp only [List.mem_cons]
  constructor
  · rintro ⟨o, rfl | ho, heq⟩
    · exact Or.inl heq
    · exact Or.inr ⟨o, ho, heq⟩
  · rintro (hz | ⟨o, ho, heq⟩)
    · exact ⟨z, Or.inl rfl, hz⟩
    · exact ⟨o, Or.inr ho, heq⟩

theorem coveredBy_btreeInsert {a x : ExerciseDefinition} {s : List ExerciseDefinition} :
    coveredBy a (btreeInsert x s) ↔ a.cmp x = .eq ∨ coveredBy a s := by
  induction s with
  | nil =>
      show coveredBy a [x] ↔ _
      simp only [coveredBy_cons, coveredBy_nil_iff]
  | cons y ys ih =>
      show coveredBy a (match x.cmp y with
        | .lt => x :: y :: ys
        | .eq => y :: ys
        | .gt => y :: btreeInsert x ys) ↔ _
      cases hxy : x.cmp y
      · simp only [coveredBy_cons]
      · simp only [coveredBy_cons]
        constructor
        · rintro (h | h)
          · exact Or.inr (Or.inl h)
          · exact Or.inr (Or.inr h)
        · rintro (h | h | h)
          · exact Or.inl (cmp_eq_trans h hxy)
          · exact Or.inl h
          · exact Or.inr h
      · simp only [coveredBy_cons, ih]
        tauto

theorem coveredBy_foldl {l : List ExerciseDefinition} {acc : List ExerciseDefinition}
    {a : ExerciseDefinition} :
    coveredBy a (l.foldl (fun s d => btreeInsert d s) acc) ↔
      coveredBy a acc ∨ coveredBy a l := by
  induction l generalizing acc with
  | nil =>
      simp only [List.foldl_nil]
      constructor
      · exact Or.inl
      · rintro (h | h)
        · exact h
        · exact absurd h coveredBy_nil
  | cons x xs ih =>
      simp only [List.foldl_cons]
      rw [ih, coveredBy_btreeInsert, coveredBy_cons]
      tauto

theorem coveredBy_btreeOfList {l : List ExerciseDefinition} {a : ExerciseDefinition} :
    coveredBy a (btreeOfList l) ↔ coveredBy a l := by
  unfold btreeOfList
  rw [coveredBy_foldl]
  constructor
  · rintro (h | h)
    · exact absurd h coveredBy_nil
    · exact h
  · exact Or.inr

theorem notOpenedIn_iff {opened : List ExerciseDefinition} {e : ExerciseDefinition} :
    notOpenedIn opened e = true ↔ ¬ coveredBy e opened := by
  unfold notOpenedIn coveredBy
  rw [List.all_eq_true]
  constructor
  · rintro h ⟨o, ho, heq⟩
    have hb := h o ho
    rw [decide_eq_true_eq] at hb
    exact hb heq
  · intro h o ho
    rw [decide_eq_true_eq]
    intro heq
    exact h ⟨o, ho, heq⟩

theorem coveredBy_map_insertOpened {a : ExerciseDefinition} {x : OpenedExercise}
    {s : List OpenedExercise} :
    coveredBy a ((btreeInsertOpened x s).map (fun o => o.definition)) ↔
      a.cmp x.definition = .eq ∨ coveredBy a (s.map (fun o => o.definition)) := by
  induction s with
  | nil =>
      show coveredBy a [x.definition] ↔ _
      simp only [coveredBy_cons, coveredBy_nil_iff, List.map_nil]
  | cons y ys ih =>
      show coveredBy a ((match x.definition.cmp y.definition with
        | .lt => x :: y :: ys
        | .eq => y :: ys
        | .gt => y :: btreeInsertOpened x ys).map
          (fun (o : OpenedExercise) => o.definition)) ↔ _
      cases hxy : x.definition.cmp y.definition
      · simp only [List.map_cons, coveredBy_cons]
      · simp only [List.map_cons, coveredBy_cons]
        constructor
        · rintro (h | h)
          · exact Or.inr (Or.inl h)
          · exact Or.inr (Or.inr h)
        · rintro (h | h | h)
          · exact Or.inl (cmp_eq_trans h hxy)
          · exact Or.inl h
          · exact Or.inr h
      · simp only [List.map_cons, coveredBy_cons, ih]
        tauto

theorem coveredBy_map_foldOpened {l : List OpenedExercise} {acc : List OpenedExercise}
    {a : ExerciseDefinition} :
    coveredBy a ((l.foldl (fun s o => btreeInsertOpened o s) acc).map
        (fun o => o.definition)) ↔
      coveredBy a (acc.map (fun o => o.definition)) ∨
        coveredBy a (l.map (fun o => o.definition)) := by
  induction l generalizing acc with
  | nil =>
      simp only [List.foldl_nil, List.map_nil]
      constructor
      · exact Or.inl
      · rintro (h | h)
        · exact h
        · exact absurd h coveredBy_nil
  | cons x xs ih =>
      simp only [List.foldl_cons, List.map_cons]
      rw [ih, coveredBy_map_insertOpened, coveredBy_cons]
      tauto

theorem chain_lt_head {x : ExerciseDefinition} {xs : List ExerciseDefinition}
    (h : List.Chain' (fun a b => a.cmp b = .lt) (x :: xs)) :
    ∀ e ∈ xs, x.cmp e = .lt := by
  induction xs generalizing x with
  | nil =>
      intro e he
      cases he
  | cons y ys ih =>
      intro e he
      have hxy : x.cmp y = .lt := (List.chain'_cons.mp h).1
      have htail : List.Chain' (fun a b => a.cmp b = .lt) (y :: ys) :=
        (List.chain'_cons.mp h).2
      rcases List.mem_cons.mp he with rfl | he'
      · exact hxy
      · exact cmp_lt_trans hxy (ih htail e he')

theorem filter_head_min {l : List ExerciseDefinition} {p : ExerciseDefinition → Bool}
    (hs : List.Chain' (fun a b => a.cmp b = .lt) l) {d : ExerciseDefinition}
    (hd : (l.filter p).head? = some d) :
    d ∈ l ∧ p d = true ∧ ∀ e ∈ l, p e = true → d = e ∨ d.cmp e = .lt := by
  induction l with
  | nil => exact Option.noConfusion hd
  | cons x xs ih =>
      by_cases hpx : p x = true
      · rw [List.filter_cons_of_pos hpx, List.head?_cons] at hd
        injection hd with hd'
        subst hd'
        refine ⟨List.mem_cons_self x xs, hpx, ?_⟩
        intro e he _
        rcases List.mem_cons.mp he with rfl | he'
        · exact Or.inl rfl
        · exact Or.inr (chain_lt_head hs e he')
      · rw [List.filter_cons_of_neg (by simpa using hpx)] at hd
        have htail : List.Chain' (fun a b => a.cmp b = .lt) xs := hs.tail
        obtain ⟨hmem, hpd, hmin⟩ := ih htail hd
        refine ⟨List.mem_cons_of_mem x hmem, hpd, ?_⟩
        intro e he hpe
        rcases List.mem_cons.mp he with rfl | he'
        · exact absurd hpe hpx
        · exact hmin e he' hpe

/-- Claim C1: `next()` returns the minimum, under the definition order,
of the set difference between the discovered set and the opened set; it
returns `None` exactly when every discovered exercise is covered by an
opened one; and on an empty progress store it returns the smallest
discovered definition (the head of the sorted discovered list).  The
hypotheses are the invariants of a live collection: the discovered list
is strictly sorted (it models a `BTreeSet`) and every stored row still
parses (otherwise `opened_exercises` panics). -/
theorem next_is_min_of_difference (st : CollectionState)
    (hsorted : List.Chain' (fun a b => ExerciseDefinition.cmp a b = .lt) st.exercises)
    (ops : List OpenedExercise) (hops : st.db.mapM rowToOpened = some ops) :
    (ExerciseCollection.next st).isSome = true
    ∧ (∀ d, ExerciseCollection.next st = some (some d) →
        d ∈ st.exercises ∧ ¬ coveredBy d (ops.map (fun o => o.definition)) ∧
        ∀ e ∈ st.exercises, ¬ coveredBy e (ops.map (fun o => o.definition)) →
          d = e ∨ d.cmp e = .lt)
    ∧ (ExerciseCollection.next st = some none ↔
        ∀ e ∈ st.exercises, coveredBy e (ops.map (fun o => o.definition)))
    ∧ (st.db = [] → ExerciseCollection.next st = some st.exercises.head?) := by
  have hopen : openedExercises st.db =
      some (ops.foldl (fun s o => btreeInsertOpened o s) []) := by
    unfold openedExercises
    rw [hops]
    rfl
  have hnext : ExerciseCollection.next st =
      some ((st.exercises.filter (notOpenedIn (btreeOfList
        ((ops.foldl (fun s o => btreeInsertOpened o s) []).map
          (fun o => o.definition))))).head?) := by
    unfold ExerciseCollection.next
    rw [hopen]
    rfl
  have hp : ∀ e, notOpenedIn (btreeOfList
      ((ops.foldl (fun s o => btreeInsertOpened o s) []).map
        (fun o => o.definition))) e = true ↔
      ¬ coveredBy e (ops.map (fun o => o.definition)) := by
    intro e
    rw [notOpenedIn_iff, coveredBy_btreeOfList, coveredBy_map_foldOpened]
    constructor
    · intro h hc
      exact h (Or.inr hc)
    · rintro h (hc | hc)
      · exact absurd hc coveredBy_nil
      · exact h hc
  refine ⟨?_, ?_, ?_, ?_⟩
  · rw [hnext]
    rfl
  · intro d hd
    rw [hnext] at hd
    injection hd with hd'
    obtain ⟨hmem, hpd, hmin⟩ := filter_head_min hsorted hd'
    refine ⟨hmem, (hp d).mp hpd, ?_⟩
    intro e he hce
    exact hmin e he ((hp e).mpr hce)
  · rw [hnext]
    constructor
    · intro h
      injection h with h'
      rw [List.head?_eq_none_iff, List.filter_eq_nil_iff] at h'
      intro e he
      by_contra hce
      exact h' e he (by rw [hp e]; exact hce)
    · intro h
      have h' : st.exercises.filter (notOpenedIn (btreeOfList
          ((ops.foldl (fun s o => btreeInsertOpened o s) []).map
            (fun o => o.definition)))) = [] := by
        rw [List.filter_eq_nil_iff]
        intro e he hpe
        exact absurd (h e he) ((hp e).mp hpe)
      rw [h', List.head?_nil]
  · intro hdb
    rw [hdb] at hops
    have hops0 : ops = [] := by
      have : (some [] : Option (List OpenedExercise)) = some ops := hops
      injection this with h'
      exact h'.symm
    subst hops0
    rw [hnext]
    have hfilter : st.exercises.filter (notOpenedIn (btreeOfList
        ((List.foldl (fun s o => btreeInsertOpened o s) []
          ([] : List OpenedExercise)).map (fun o => o.definition)))) = st.exercises :=
      List.filter_eq_self.mpr (fun e _ => rfl)
    rw [hfilter]

/-- Witness for claim C1: a two-exercise collection with an empty
progress store; `next` returns the smaller exercise. -/
theorem next_is_min_of_difference_witness :
    ExerciseCollection.next
      ⟨["exercises"], [⟨"intro", 1, "hello", 0⟩, ⟨"intro", 1, "world", 1⟩], []⟩ =
      some (some ⟨"intro", 1, "hello", 0⟩) := by
  have h := next_is_min_of_difference
    ⟨["exercises"], [⟨"intro", 1, "hello", 0⟩, ⟨"intro", 1, "world", 1⟩], []⟩
    (by rw [List.chain'_cons]; exact ⟨by decide, List.chain'_singleton _⟩) [] rfl
  exact h.2.2.2 rfl

/-! Helper lemmas about the progress store. -/

theorem insertOrIgnore_of_present {db : List Row} {c e : String}
    (h : db.any (rowKeyMatches c e) = true) : insertOrIgnore db c e = db := by
  unfold insertOrIgnore
  rw [if_pos h]

theorem insertOrIgnore_of_absent {db : List Row} {c e : String}
    (h : db.any (rowKeyMatches c e) = false) :
    insertOrIgnore db c e = db ++ [{ chapter := c, exercise := e, solved := false }] := by
  unfold insertOrIgnore
  rw [if_neg]
  rw [h]
  exact Bool.false_ne_true

theorem rowKeyMatches_self (c e : String) (v : Bool) :
    rowKeyMatches c e { chapter := c, exercise := e, solved := v } = true := by
  simp [rowKeyMatches]

theorem any_insertOrIgnore (db : List Row) (c e : String) :
    (insertOrIgnore db c e).any (rowKeyMatches c e) = true := by
  cases hany : db.any (rowKeyMatches c e)
  · rw [insertOrIgnore_of_absent hany, List.any_append]
    simp [rowKeyMatches]
  · rw [insertOrIgnore_of_present hany]
    exact hany

theorem insertOrIgnore_idem (db : List Row) (c e : String) :
    insertOrIgnore (insertOrIgnore db c e) c e = insertOrIgnore db c e :=
  insertOrIgnore_of_present (any_insertOrIgnore db c e)

theorem keyCount_insertOrIgnore {db : List Row} {c e : String}
    (hu : keyUnique db) :
    ((insertOrIgnore db c e).filter (rowKeyMatches c e)).length = 1 := by
  cases hany : db.any (rowKeyMatches c e)
  · rw [insertOrIgnore_of_absent hany, List.filter_append]
    have hnil : db.filter (rowKeyMatches c e) = [] := by
      rw [List.filter_eq_nil_iff]
      intro r hr hm
      rw [List.any_eq_false] at hany
      exact hany r hr hm
    rw [hnil]
    simp [rowKeyMatches]
  · rw [insertOrIgnore_of_present hany]
    obtain ⟨r, hr, hm⟩ := List.any_eq_true.mp hany
    have hmem : r ∈ db.filter (rowKeyMatches c e) := List.mem_filter.mpr ⟨hr, hm⟩
    have hpos : 0 < (db.filter (rowKeyMatches c e)).length :=
      List.length_pos.mpr (List.ne_nil_of_mem hmem)
    have hle := hu c e
    omega

/-- Claim C2: `open(def)` errors exactly when `def` is not a member of
the discovered set (membership being the set's own notion, comparison
by the number pair), leaving the store unchanged on error; on success it
inserts a `solved = false` row only when no row with the key exists yet,
so a second `open` of the same definition returns the identical result
and state: exactly one row with the key remains (given the primary-key
invariant) and its `solved` value is whatever it was before the second
call. -/
theorem open_guard_and_idempotent (st : CollectionState) (ex : ExerciseDefinition)
    (hu : keyUnique st.db) :
    ((ExerciseCollection.openExercise st ex).1.isOk = false ↔
      btreeContains st.exercises ex = false)
    ∧ ((ExerciseCollection.openExercise st ex).1.isOk = false →
        (ExerciseCollection.openExercise st ex).2 = st)
    ∧ (btreeContains st.exercises ex = true →
        (ExerciseCollection.openExercise st ex).2.db =
          insertOrIgnore st.db ex.chapter ex.exercise
        ∧ (st.db.any (rowKeyMatches ex.chapter ex.exercise) = false →
            (ExerciseCollection.openExercise st ex).2.db = st.db ++
              [{ chapter := ex.chapter, exercise := ex.exercise, solved := false }])
        ∧ (st.db.any (rowKeyMatches ex.chapter ex.exercise) = true →
            (ExerciseCollection.openExercise st ex).2.db = st.db)
        ∧ ((ExerciseCollection.openExercise st ex).2.db.filter
            (rowKeyMatches ex.chapter ex.exercise)).length = 1)
    ∧ ExerciseCollection.openExercise (ExerciseCollection.openExercise st ex).2 ex =
        ExerciseCollection.openExercise st ex := by
  cases hmem : btreeContains st.exercises ex
  · have herr : ExerciseCollection.openExercise st ex =
        (.error "The exercise you are trying to open does not exist", st) := by
      unfold ExerciseCollection.openExercise
      rw [if_pos hmem]
    refine ⟨?_, ?_, ?_, ?_⟩
    · rw [herr]
      exact ⟨fun _ => rfl, fun _ => rfl⟩
    · intro _
      rw [herr]
    · intro hc
      exact Bool.noConfusion hc
    · rw [herr]
      show ExerciseCollection.openExercise st ex = _
      rw [herr]
  · have hok : ExerciseCollection.openExercise st ex =
        (.ok (), { st with db := insertOrIgnore st.db ex.chapter ex.exercise }) := by
      unfold ExerciseCollection.openExercise
      rw [if_neg]
      intro hcond
      rw [hmem] at hcond
      exact Bool.noConfusion hcond
    refine ⟨?_, ?_, ?_, ?_⟩
    · rw [hok]
      constructor
      · intro h
        exact h
      · intro h
        exact Bool.noConfusion h
    · intro h
      rw [hok] at h
      exact Bool.noConfusion h
    · intro _
      rw [hok]
      refine ⟨rfl, ?_, ?_, keyCount_insertOrIgnore hu⟩
      · intro hany
        exact insertOrIgnore_of_absent hany
      · intro hany
        exact insertOrIgnore_of_present hany
    · rw [hok]
      show ExerciseCollection.openExercise
        { st with db := insertOrIgnore st.db ex.chapter ex.exercise } ex = _
      unfold ExerciseCollection.openExercise
      rw [if_neg]
      · rw [insertOrIgnore_idem]
      · show ¬ btreeContains st.exercises ex = false
        intro hcond
        rw [hmem] at hcond
        exact Bool.noConfusion hcond

/-- Witness for claim C2: opening the same exercise twice on a
one-exercise collection leaves a single unsolved row. -/
theorem open_guard_and_idempotent_witness :
    ((ExerciseCollection.openExercise
        ⟨["exercises"], [⟨"intro", 1, "hello", 0⟩], []⟩
        ⟨"intro", 1, "hello", 0⟩).2.db.filter
      (rowKeyMatches (⟨"intro", 1, "hello", 0⟩ : ExerciseDefinition).chapter
        (⟨"intro", 1, "hello", 0⟩ : ExerciseDefinition).exercise)).length = 1 :=
  ((open_guard_and_idempotent ⟨["exercises"], [⟨"intro", 1, "hello", 0⟩], []⟩
      ⟨"intro", 1, "hello", 0⟩ (fun c e => Nat.zero_le 1)).2.2.1
    (by decide)).2.2.2

theorem mem_updateSolved {db : List Row} {c e : String} {v : Bool} {r : Row}
    (hr : r ∈ db) (hm : rowKeyMatches c e r = true) :
    { r with solved := v } ∈ updateSolved db c e v := by
  unfold updateSolved
  refine List.mem_map.mpr ⟨r, hr, ?_⟩
  show (if rowKeyMatches c e r = true then { r with solved := v } else r) = _
  rw [if_pos hm]

/-- Claim C7: after every completed verification run the progress store
is updated unconditionally with the run outcome: the row of the
exercise (when one exists) is set to solved on success and to unsolved
on failure, regardless of its previous value, so a previously solved
exercise whose verification now fails ends the run marked unsolved. -/
theorem verify_updates_store_unconditionally (exec : Cmd → CmdOutput)
    (st : CollectionState) (d : ExerciseDefinition)
    (verification : List Verification) (exerciseConfig : Option ExerciseConfig)
    (skipBuild verbose useAnsiColours : Bool) :
    ∀ out st', verify exec st d verification exerciseConfig skipBuild verbose
        useAnsiColours = (out, st') →
      st'.db = updateSolved st.db d.chapter d.exercise (decide (out = .success))
      ∧ st'.exercises = st.exercises
      ∧ st'.exercises_dir = st.exercises_dir
      ∧ (∀ r ∈ st.db, rowKeyMatches d.chapter d.exercise r = true →
          { r with solved := decide (out = .success) } ∈ st'.db)
      ∧ (out ≠ .success → ∀ r ∈ st.db,
          rowKeyMatches d.chapter d.exercise r = true → r.solved = true →
          { r with solved := false } ∈ st'.db) := by
  intro out st' h
  unfold verify at h
  cases hout : verifyPipeline exec (manifestPath st.exercises_dir d)
      (resolveSteps exerciseConfig verification) skipBuild verbose useAnsiColours with
  | success =>
      rw [hout] at h
      simp only [verifyRecord] at h
      injection h with h1 h2
      subst h1
      subst h2
      refine ⟨rfl, rfl, rfl, ?_, ?_⟩
      · intro r hr hm
        exact mem_updateSolved hr hm
      · intro hne
        exact absurd rfl hne
  | failure cmd bytes =>
      rw [hout] at h
      simp only [verifyRecord] at h
      injection h with h1 h2
      subst h1
      subst h2
      refine ⟨rfl, rfl, rfl, ?_, ?_⟩
      · intro r hr hm
        exact mem_updateSolved hr hm
      · intro _ r hr hm _
        exact mem_updateSolved hr hm

/-- Witness for claim C7: a failing pipeline run demotes a previously
solved row to unsolved. -/
theorem verify_updates_store_witness :
    ((verify (fun _ => { statusSuccess := false, stdout := [], stderr := [7] })
        ⟨["exercises"], [⟨"intro", 1, "hello", 0⟩],
          [{ chapter := "01_intro", exercise := "00_hello", solved := true }]⟩
        ⟨"intro", 1, "hello", 0⟩ [] none true false false).2).db =
      [{ chapter := "01_intro", exercise := "00_hello", solved := false }] := by
  have h := verify_updates_store_unconditionally
    (fun _ => { statusSuccess := false, stdout := [], stderr := [7] })
    ⟨["exercises"], [⟨"intro", 1, "hello", 0⟩],
      [{ chapter := "01_intro", exercise := "00_hello", solved := true }]⟩
    ⟨"intro", 1, "hello", 0⟩ [] none true false false
    (verify (fun _ => { statusSuccess := false, stdout := [], stderr := [7] })
      ⟨["exercises"], [⟨"intro", 1, "hello", 0⟩],
        [{ chapter := "01_intro", exercise := "00_hello", solved := true }]⟩
      ⟨"intro", 1, "hello", 0⟩ [] none true false false).1
    (verify (fun _ => { statusSuccess := false, stdout := [], stderr := [7] })
      ⟨["exercises"], [⟨"intro", 1, "hello", 0⟩],
        [{ chapter := "01_intro", exercise := "00_hello", solved := true }]⟩
      ⟨"intro", 1, "hello", 0⟩ [] none true false false).2
    rfl
  rw [h.1]
  decide

/-- Counterexample to claim C3: a per-exercise configuration that is
present but defines no verification steps does not leave the
collection-wide list in effect.  The resolution step yields the empty
per-exercise list, so the run falls back to the default test-runner
command instead of the collection-wide `echo hi` step. -/
theorem per_exercise_empty_config_counterexample :
    resolveSteps (some { verification := [] })
        [{ command := "echo", args := ["hi"] }] = []
    ∧ verificationCommands (resolveSteps (some { verification := [] })
        [{ command := "echo", args := ["hi"] }]) false false
        ["exercises", "01_a", "00_b"] =
      [{ program := "cargo", args := ["test", "--color", "never", "-q"],
         currentDir := some ["exercises", "01_a", "00_b"] }]
    ∧ verificationCommands (resolveSteps (some { verification := [] })
        [{ command := "echo", args := ["hi"] }]) false false
        ["exercises", "01_a", "00_b"] ≠
      verificationCommands (resolveSteps none [{ command := "echo", args := ["hi"] }])
        false false ["exercises", "01_a", "00_b"] := by
  refine ⟨rfl, rfl, ?_⟩
  decide

/-- Claim C3 (amended): a per-exercise configuration, when present,
fully replaces the collection-wide list with its own step list even when
that list is empty; the collection-wide list is in effect exactly when
no per-exercise configuration exists; and whenever the resolved list is
empty (from either source) a single default `cargo test` step is used,
while a nonempty resolved list is run as given. -/
theorem verification_resolution (coll : List Verification)
    (verbose colours : Bool) (dir : List String) :
    (∀ c : ExerciseConfig, resolveSteps (some c) coll = c.verification)
    ∧ resolveSteps none coll = coll
    ∧ (∀ cfg : Option ExerciseConfig, resolveSteps cfg coll = [] →
        verificationCommands (resolveSteps cfg coll) verbose colours dir =
          [withCurrentDir dir (defaultTestCmd verbose colours)])
    ∧ (∀ cfg : Option ExerciseConfig, resolveSteps cfg coll ≠ [] →
        verificationCommands (resolveSteps cfg coll) verbose colours dir =
          (resolveSteps cfg coll).map (fun v => withCurrentDir dir (stepCmd v))) := by
  refine ⟨fun c => rfl, rfl, ?_, ?_⟩
  · intro cfg h
    rw [h]
    rfl
  · intro cfg h
    cases hl : resolveSteps cfg coll with
    | nil => exact absurd hl h
    | cons v vs =>
        show (if ((v :: vs).map stepCmd).isEmpty
            then [defaultTestCmd verbose colours]
            else (v :: vs).map stepCmd).map (withCurrentDir dir) = _
        rw [List.map_cons]
        show ((stepCmd v :: vs.map stepCmd).map (withCurrentDir dir)) = _
        rw [List.map_cons, List.map_map, List.map_cons]
        rfl

/-- Witness for claim C3 (amended): a present-but-empty per-exercise
configuration resolves to the default test step. -/
theorem verification_resolution_witness :
    verificationCommands (resolveSteps (some { verification := [] })
        [{ command := "echo", args := ["hi"] }]) true true ["d"] =
      [withCurrentDir ["d"] (defaultTestCmd true true)] :=
  (verification_resolution [{ command := "echo", args := ["hi"] }] true true ["d"]).2.2.1
    (some { verification := [] }) rfl

/-! Helper lemmas about the verification stage. -/

theorem runVerificationCmds_all_success {exec : Cmd → CmdOutput} :
    ∀ {l : List Cmd}, (∀ c ∈ l, (exec c).statusSuccess = true) →
      runVerificationCmds exec l = .success := by
  intro l
  induction l with
  | nil => intro _; rfl
  | cons c cs ih =>
      intro h
      show (if (exec c).statusSuccess then runVerificationCmds exec cs
        else .failure c ((exec c).stderr ++ (exec c).stdout)) = _
      rw [if_pos (h c (List.mem_cons_self c cs))]
      exact ih (fun x hx => h x (List.mem_cons_of_mem c hx))

theorem runVerificationCmds_first_failure {exec : Cmd → CmdOutput} :
    ∀ (pre : List Cmd) (c : Cmd) (post : List Cmd),
      (∀ x ∈ pre, (exec x).statusSuccess = true) →
      (exec c).statusSuccess = false →
      runVerificationCmds exec (pre ++ c :: post) =
        .failure c ((exec c).stderr ++ (exec c).stdout) := by
  intro pre
  induction pre with
  | nil =>
      intro c post _ hc
      show (if (exec c).statusSuccess then runVerificationCmds exec post
        else .failure c ((exec c).stderr ++ (exec c).stdout)) = _
      rw [if_neg]
      rw [hc]
      exact Bool.false_ne_true
  | cons x xs ih =>
      intro c post hpre hc
      show (if (exec x).statusSuccess then runVerificationCmds exec (xs ++ c :: post)
        else .failure x ((exec x).stderr ++ (exec x).stdout)) = _
      rw [if_pos (hpre x (List.mem_cons_self x xs))]
      exact ih c post (fun y hy => hpre y (List.mem_cons_of_mem x hy)) hc

theorem verifyPipeline_build_passes {exec : Cmd → CmdOutput} {manifest : List String}
    {verification : List Verification} {skipBuild verbose colours : Bool}
    (hbuild : skipBuild = false →
      (exec (buildCmd manifest verbose colours)).statusSuccess = true) :
    verifyPipeline exec manifest verification skipBuild verbose colours =
      runVerificationCmds exec
        (verificationCommands verification verbose colours manifest.dropLast) := by
  cases skipBuild with
  | true => rfl
  | false =>
      show (if (exec (buildCmd manifest verbose colours)).statusSuccess
        then runVerificationCmds exec
          (verificationCommands verification verbose colours manifest.dropLast)
        else _) = _
      rw [if_pos (hbuild rfl)]

/-- Claim C6: the verification stage runs the resolved steps in list
order from the exercise directory (the parent of the manifest path); the
first step whose exit status is non-zero terminates the run as a failure
carrying that step command and its captured stderr followed by its
stdout; if every step exits zero the outcome is success.  The build
stage is assumed passed or skipped, which is exactly when the
verification stage is reached. -/
theorem verification_stage_semantics (exec : Cmd → CmdOutput) (manifest : List String)
    (verification : List Verification) (skipBuild verbose colours : Bool)
    (hbuild : skipBuild = false →
      (exec (buildCmd manifest verbose colours)).statusSuccess = true) :
    (∀ c ∈ verificationCommands verification verbose colours manifest.dropLast,
        c.currentDir = some manifest.dropLast)
    ∧ ((∀ c ∈ verificationCommands verification verbose colours manifest.dropLast,
          (exec c).statusSuccess = true) →
        verifyPipeline exec manifest verification skipBuild verbose colours = .success)
    ∧ (∀ pre c post,
        verificationCommands verification verbose colours manifest.dropLast =
          pre ++ c :: post →
        (∀ x ∈ pre, (exec x).statusSuccess = true) →
        (exec c).statusSuccess = false →
        verifyPipeline exec manifest verification skipBuild verbose colours =
          .failure c ((exec c).stderr ++ (exec c).stdout)) := by
  refine ⟨?_, ?_, ?_⟩
  · intro c hc
    unfold verificationCommands at hc
    obtain ⟨x, _, hx⟩ := List.mem_map.mp hc
    rw [← hx]
    rfl
  · intro h
    rw [verifyPipeline_build_passes hbuild]
    exact runVerificationCmds_all_success h
  · intro pre c post hsplit hpre hc
    rw [verifyPipeline_build_passes hbuild, hsplit]
    exact runVerificationCmds_first_failure pre c post hpre hc

/-- Witness for claim C6: a single failing step on a skipped build. -/
theorem verification_stage_semantics_witness :
    verifyPipeline (fun _ => { statusSuccess := false, stdout := [1], stderr := [2] })
      ["e", "01_a", "00_b", "Cargo.toml"] [{ command := "false", args := [] }]
      true false false =
      .failure { program := "false", args := [], currentDir := some ["e", "01_a", "00_b"] }
        ([2] ++ [1]) :=
  (verification_stage_semantics
      (fun _ => { statusSuccess := false, stdout := [1], stderr := [2] })
      ["e", "01_a", "00_b", "Cargo.toml"] [{ command := "false", args := [] }]
      true false false (fun h => Bool.noConfusion h)).2.2
    [] { program := "false", args := [], currentDir := some ["e", "01_a", "00_b"] } []
    rfl (fun x hx => absurd hx (List.not_mem_nil x)) rfl

/-! Helper lemmas about discovery. -/

theorem except_bind_ok {ε α β : Type} (a : α) (f : α → Except ε β) :
    (Except.ok a >>= f) = f a := rfl

theorem except_bind_error {ε α β : Type} (e : ε) (f : α → Except ε β) :
    ((Except.error e : Except ε α) >>= f) = Except.error e := rfl

theorem chapterPairs_of_error {c : ChapterEntry} {m : String} (h : c.sub = .error m) :
    chapterPairs c = .error m := by
  unfold chapterPairs
  rw [h]
  rfl

theorem chapterPairs_of_ok {c : ChapterEntry} {es : List ExerciseEntry}
    (h : c.sub = .ok es) : chapterPairs c = .ok (subPairsD c) := by
  unfold chapterPairs subPairsD
  rw [h]
  rfl

theorem subPairsD_of_ok {c : ChapterEntry} {es : List ExerciseEntry}
    (h : c.sub = .ok es) : subPairsD c = es.map (fun x => (c.name, x.name)) := by
  unfold subPairsD
  rw [h]

theorem mapM_chapterPairs_error {l : List ChapterEntry} {c : ChapterEntry} {m : String}
    (hc : c ∈ l) (hsub : c.sub = .error m) :
    ∃ m', l.mapM chapterPairs = Except.error m' := by
  induction l with
  | nil => cases hc
  | cons x xs ih =>
      rw [List.mapM_cons]
      rcases List.mem_cons.mp hc with rfl | hc'
      · refine ⟨m, ?_⟩
        rw [chapterPairs_of_error hsub]
        rfl
      · cases hx : chapterPairs x with
        | error e =>
            refine ⟨e, ?_⟩
            rfl
        | ok y =>
            obtain ⟨m', hm'⟩ := ih hc'
            refine ⟨m', ?_⟩
            rw [except_bind_ok, hm']
            rfl

theorem mapM_chapterPairs_ok {l : List ChapterEntry}
    (h : ∀ c ∈ l, ∃ es, c.sub = .ok es) :
    l.mapM chapterPairs = .ok (l.map subPairsD) := by
  induction l with
  | nil => rfl
  | cons x xs ih =>
      rw [List.mapM_cons]
      obtain ⟨es, hes⟩ := h x (List.mem_cons_self x xs)
      rw [chapterPairs_of_ok hes, except_bind_ok,
        ih (fun c hc => h c (List.mem_cons_of_mem x hc)), except_bind_ok]
      rfl

theorem mem_btreeInsert_sub {z x : ExerciseDefinition} {s : List ExerciseDefinition}
    (h : z ∈ btreeInsert x s) : z = x ∨ z ∈ s := by
  induction s with
  | nil =>
      rcases List.mem_cons.mp h with rfl | h'
      · exact Or.inl rfl
      · exact absurd h' (List.not_mem_nil z)
  | cons y ys ih =>
      revert h
      show z ∈ (match x.cmp y with
        | .lt => x :: y :: ys
        | .eq => y :: ys
        | .gt => y :: btreeInsert x ys) → _
      cases x.cmp y
      · intro h
        rcases List.mem_cons.mp h with rfl | h'
        · exact Or.inl rfl
        · exact Or.inr h'
      · intro h
        exact Or.inr h
      · intro h
        rcases List.mem_cons.mp h with rfl | h'
        · exact Or.inr (List.mem_cons_self z ys)
        · rcases ih h' with rfl | h''
          · exact Or.inl rfl
          · exact Or.inr (List.mem_cons_of_mem y h'')

theorem mem_btreeFold_sub :
    ∀ {l acc : List ExerciseDefinition} {z : ExerciseDefinition},
      z ∈ l.foldl (fun s d => btreeInsert d s) acc → z ∈ acc ∨ z ∈ l := by
  intro l
  induction l with
  | nil =>
      intro acc z h
      exact Or.inl h
  | cons x xs ih =>
      intro acc z h
      simp only [List.foldl_cons] at h
      rcases ih h with h' | h'
      · rcases mem_btreeInsert_sub h' with rfl | h''
        · exact Or.inr (List.mem_cons_self z xs)
        · exact Or.inl h''
      · exact Or.inr (List.mem_cons_of_mem x h')

theorem mem_btreeOfList_sub {z : ExerciseDefinition} {l : List ExerciseDefinition}
    (h : z ∈ btreeOfList l) : z ∈ l := by
  unfold btreeOfList at h
  rcases mem_btreeFold_sub h with h' | h'
  · exact absurd h' (List.not_mem_nil z)
  · exact h'

/-- Claim C9: at the chapter level, unreadable entries and entries that
are not directories are skipped; at the exercise level every entry is
attempted, whether file or directory (the result does not depend on the
directory flags); name pairs that fail to parse are silently dropped
while every parseable pair contributes an element of the resulting set,
and the scan raises no error for dropped entries; a failure to list the
root or a chapter directory aborts discovery with an error instead of
dropping the directory. -/
theorem discovery_skips_and_aborts :
    (∀ (dir : List String) (m : String) (db : List Row),
        ExerciseCollection.new dir (.error m) db =
          .error "Failed to read the workshop-runner directory")
    ∧ (∀ (l1 l2 : List (Except Unit ChapterEntry)) (x : Except Unit ChapterEntry),
        (x = .error () ∨ ∃ c, x = .ok c ∧ c.isDir = false) →
        collectExercises (l1 ++ x :: l2) = collectExercises (l1 ++ l2))
    ∧ (∀ (n : OsStr) (b : Bool) (es : List ExerciseEntry) (f : ExerciseEntry → Bool),
        chapterPairs ⟨n, b, .ok (es.map (fun x => ⟨x.name, f x⟩))⟩ =
          chapterPairs ⟨n, b, .ok es⟩)
    ∧ (∀ (entries : List (Except Unit ChapterEntry)) (c : ChapterEntry) (m : String),
        c ∈ chapterDirs entries → c.sub = .error m →
        ∃ m', collectExercises entries = .error m')
    ∧ (∀ entries : List (Except Unit ChapterEntry),
        (∀ c ∈ chapterDirs entries, ∃ es, c.sub = .ok es) →
        ∃ s, collectExercises entries = .ok s
          ∧ (∀ c ∈ chapterDirs entries, ∀ es, c.sub = .ok es → ∀ x ∈ es,
              ∀ d, ExerciseDefinition.new c.name x.name = .ok d → coveredBy d s)
          ∧ (∀ d ∈ s, ∃ c ∈ chapterDirs entries, ∃ es, c.sub = .ok es ∧
              ∃ x ∈ es, ExerciseDefinition.new c.name x.name = .ok d)) := by
  refine ⟨fun dir m db => rfl, ?_, ?_, ?_, ?_⟩
  · intro l1 l2 x hx
    have hgx : chapterFilter x = none := by
      rcases hx with rfl | ⟨c, rfl, hc⟩
      · rfl
      · show (if c.isDir = true then some c else none) = none
        rw [hc]
        rfl
    have hf : chapterDirs (l1 ++ x :: l2) = chapterDirs (l1 ++ l2) := by
      unfold chapterDirs
      rw [List.filterMap_append, List.filterMap_append, List.filterMap_cons_none hgx]
    unfold collectExercises
    rw [hf]
  · intro n b es f
    have h1 : chapterPairs ⟨n, b, Except.ok (es.map (fun x => ⟨x.name, f x⟩))⟩ =
        Except.ok (subPairsD ⟨n, b, Except.ok (es.map (fun x => ⟨x.name, f x⟩))⟩) :=
      chapterPairs_of_ok rfl
    have h2 : chapterPairs ⟨n, b, Except.ok es⟩ =
        Except.ok (subPairsD ⟨n, b, Except.ok es⟩) :=
      chapterPairs_of_ok rfl
    have h3 : subPairsD ⟨n, b, Except.ok (es.map (fun x => ⟨x.name, f x⟩))⟩ =
        (es.map (fun x => (⟨x.name, f x⟩ : ExerciseEntry))).map
          (fun x => (n, x.name)) :=
      subPairsD_of_ok rfl
    have h4 : subPairsD ⟨n, b, Except.ok es⟩ = es.map (fun x => (n, x.name)) :=
      subPairsD_of_ok rfl
    rw [h1, h2, h3, h4, List.map_map]
    rfl
  · intro entries c m hc hsub
    obtain ⟨m', hm'⟩ := mapM_chapterPairs_error hc hsub
    refine ⟨m', ?_⟩
    unfold collectExercises
    rw [hm']
    rfl
  · intro entries hall
    have hmapm := mapM_chapterPairs_ok hall
    refine ⟨btreeOfList ((((chapterDirs entries).map subPairsD).flatten).filterMap
      (fun p => (ExerciseDefinition.new p.1 p.2).toOption)), ?_, ?_, ?_⟩
    · unfold collectExercises
      rw [hmapm]
      rfl
    · intro c hc es hes x hx d hd
      have hpair : (c.name, x.name) ∈ ((chapterDirs entries).map subPairsD).flatten := by
        refine List.mem_flatten.mpr ⟨subPairsD c, List.mem_map_of_mem subPairsD hc, ?_⟩
        rw [subPairsD_of_ok hes]
        exact List.mem_map_of_mem (fun x => (c.name, x.name)) hx
      have hmem : d ∈ (((chapterDirs entries).map subPairsD).flatten).filterMap
          (fun p => (ExerciseDefinition.new p.1 p.2).toOption) := by
        refine List.mem_filterMap.mpr ⟨(c.name, x.name), hpair, ?_⟩
        rw [hd]
        rfl
      exact coveredBy_btreeOfList.mpr ⟨d, hmem, cmp_self d⟩
    · intro d hd
      have hd' := mem_btreeOfList_sub hd
      obtain ⟨p, hp, hpd⟩ := List.mem_filterMap.mp hd'
      obtain ⟨sub, hsub, hpsub⟩ := List.mem_flatten.mp hp
      obtain ⟨c, hc, rfl⟩ := List.mem_map.mp hsub
      obtain ⟨es, hes⟩ := hall c hc
      rw [subPairsD_of_ok hes] at hpsub
      obtain ⟨x, hx, rfl⟩ := List.mem_map.mp hpsub
      refine ⟨c, hc, es, hes, x, hx, ?_⟩
      cases hnew : ExerciseDefinition.new c.name x.name with
      | ok d' =>
          rw [hnew] at hpd
          injection hpd with h'
          exact congrArg Except.ok h'
      | error e =>
          rw [hnew] at hpd
          exact Option.noConfusion hpd

/-- Witness for claim C9: a collection with one valid chapter directory
that contains one valid and one invalid exercise entry, plus a skipped
file entry at the chapter level; discovery keeps exactly the valid
exercise. -/
theorem discovery_skips_and_aborts_witness :
    collectExercises
      [.ok ⟨some "01_intro", true,
        .ok [⟨some "00_hello", true⟩, ⟨some "x_broken", false⟩]⟩,
       .ok ⟨some "notes.txt", false, .error "io"⟩] =
      .ok [⟨"intro", 1, "hello", 0⟩] := by
  have h := (discovery_skips_and_aborts).2.2.2.2
    [.ok ⟨some "01_intro", true,
      .ok [⟨some "00_hello", true⟩, ⟨some "x_broken", false⟩]⟩,
     .ok ⟨some "notes.txt", false, .error "io"⟩]
    (fun c hc => by
      refine ⟨[⟨some "00_hello", true⟩, ⟨some "x_broken", false⟩], ?_⟩
      rcases List.mem_cons.mp hc with rfl | hc'
      · rfl
      · exact absurd hc' (List.not_mem_nil c))
  obtain ⟨s, hs, _, _⟩ := h
  have hse : (Except.ok s : Except String (List ExerciseDefinition)) =
      .ok [⟨"intro", 1, "hello", 0⟩] := by
    rw [← hs]
    rfl
  exact hs.trans hse

end wr
